import Mathlib

/- A shallow embedding of src/copula.py (class Copula): parameter estimation
   from Kendall tau, the family cdf evaluators, the empirical tail profile,
   and the copula family selection procedure.

   Numeric values live in an arbitrary linear ordered field, so the same
   definitions can be instantiated at ℚ (concrete evaluation by the kernel)
   and at ℝ (analytic statements, with Real.exp / Real.log / Real.rpow as the
   transcendental primitives).  The external library routines the code calls
   (scipy.stats.kendalltau, scipy.optimize.fmin, scipy.integrate.quad, and
   the scalar transcendental functions of numpy) are supplied through an
   `Oracles` record, mirroring the spec's list of external collaborators. -/

namespace CopulaModel

/-- Runtime failures of the Python code: `valueError` is the `ValueError`
raised for a parameter outside its family domain (the spec's
InvalidParameterError), `indexError` a list index out of range,
`broadcastError` a numpy shape mismatch, `zeroDivisionError` a Python
division by zero, `attributeMissing` use of an attribute that was never
assigned or is still `None`, and `unsupported` the `Exception` raised for
an unknown family name. -/
inductive PyErr : Type where
  | valueError
  | indexError
  | broadcastError
  | zeroDivisionError
  | attributeMissing
  | unsupported
  deriving DecidableEq, Repr

/-- Result of running a piece of Python code: a value or a raised exception. -/
inductive PyRes (β : Type) : Type where
  | ok (val : β)
  | error (e : PyErr)
  deriving DecidableEq, Repr

instance : Monad PyRes where
  pure := PyRes.ok
  bind x f := match x with
    | .ok a => f a
    | .error e => .error e

@[simp] theorem PyRes.ok_bind {β γ : Type} (a : β) (f : β → PyRes γ) :
    (PyRes.ok a >>= f) = f a := rfl

@[simp] theorem PyRes.error_bind {β γ : Type} (e : PyErr) (f : β → PyRes γ) :
    ((PyRes.error e : PyRes β) >>= f) = PyRes.error e := rfl

@[simp] theorem PyRes.pure_eq_ok {β : Type} (a : β) :
    (pure a : PyRes β) = PyRes.ok a := rfl

/-- Apply a function to the value of a successful result. -/
def PyRes.map {β γ : Type} (f : β → γ) : PyRes β → PyRes γ
  | .ok a => .ok (f a)
  | .error e => .error e

/-- Python list indexing `xs[i]` for a nonnegative index: raises IndexError
when the index is out of range. -/
def pyGet {β : Type} (xs : List β) (i : ℕ) : PyRes β :=
  match xs.get? i with
  | some x => .ok x
  | none => .error .indexError

/-- Reading an attribute that may still be `None` (or unset) where a value
is required. -/
def pyAttr {β : Type} (x : Option β) : PyRes β :=
  match x with
  | some a => .ok a
  | none => .error .attributeMissing

variable {α : Type} [LinearOrderedField α]

/-- An elementwise numpy binary operation on two equal-length sequences.
Length-1 broadcasting is not modelled; every claim involves equal-length
operands only. -/
def npZip (f : α → α → α) (xs ys : List α) : PyRes (List α) :=
  if xs.length = ys.length then .ok (List.zipWith f xs ys) else .error .broadcastError

/-- `np.multiply(U, V)` on two sequences. -/
def npMultiply (xs ys : List α) : PyRes (List α) :=
  npZip (fun a b => a * b) xs ys

/-- Index of the first maximal element: `i` is the index of the head of the
remaining list, `bi` and `bv` the index and value of the best element so
far (ties keep the earlier index, as `np.argmax` does). -/
def argmaxAux : ℕ → ℕ → α → List α → ℕ
  | _, bi, _, [] => bi
  | i, bi, bv, x :: xs =>
    if bv < x then argmaxAux (i + 1) i x xs else argmaxAux (i + 1) bi bv xs

/-- `np.argmax`: first index of the largest element; `ValueError` on an
empty sequence. -/
def npArgmax (xs : List α) : PyRes ℕ :=
  match xs with
  | [] => .error .valueError
  | x :: rest => .ok (argmaxAux 1 0 x rest)

/-- The external numeric routines the code consumes, treated as library
primitives (spec section 6): `kendall` is `scipy.stats.kendalltau(U, V)[0]`,
`fmin` is `scipy.optimize.fmin(objective, start)[0]`, `quad` is
`scipy.integrate.quad(f, a, b)[0]`, and `rexp`, `rlog`, `rpow` are the
scalar `np.exp`, `np.log`, `np.power`. -/
structure Oracles (α : Type) : Type where
  kendall : List α → List α → α
  fmin : (α → α) → α → α
  quad : (α → α) → α → α → α
  rexp : α → α
  rlog : α → α
  rpow : α → α → α

/-- `sys.float_info.epsilon`, the lower integration endpoint in
`_frank_help`. -/
def floatEpsilon : α := 1 / 2 ^ 52

/-- `Copula._frank_help`: the objective handed to `fmin` when estimating the
Frank parameter.  As in the source, `debye_value` (the quadrature result) is
bound but never read; the returned difference uses the pointwise
`debye(-alpha)`. -/
def frankHelp (O : Oracles α) (tau : α) (alpha : α) : α :=
  let debye : α → α := fun t => t / (O.rexp t - 1)
  let debye_value : α := O.quad debye floatEpsilon alpha / alpha
  let diff : α := (1 - tau) / 4 - (debye (-alpha) - 1) / alpha
  diff ^ 2

/-- The Clayton branch of `_get_parameter`: `2*tau/(1-tau)`, with the
sentinel `10000` at `tau == 1`. -/
def claytonTheta (tau : α) : α :=
  if tau = 1 then 10000 else 2 * tau / (1 - tau)

/-- The Gumbel branch of `_get_parameter`: `1/(1-tau)`, with the sentinel
`10000` at `tau == 1`. -/
def gumbelTheta (tau : α) : α :=
  if tau = 1 then 10000 else 1 / (1 - tau)

/-- The Frank branch of `_get_parameter`:
`-fmin(self._frank_help, -5, disp=False)[0]`. -/
def frankTheta (O : Oracles α) (tau : α) : α :=
  -(O.fmin (frankHelp O tau) (-5))

/-- `Copula._get_parameter`: estimate theta from tau.  For a family name
other than the three Archimedean ones the method falls through without
assigning, so the attribute keeps the value passed to the constructor. -/
def getParameter (O : Oracles α) (tau : α) (theta0 : Option α) (cname : String) : Option α :=
  if cname = "clayton" then some (claytonTheta tau)
  else if cname = "frank" then some (frankTheta O tau)
  else if cname = "gumbel" then some (gumbelTheta tau)
  else theta0

/-- One entry of the Clayton cdf list comprehension, for `theta > 0`.
`np.power(0.0, -t)` with `t > 0` evaluates to `inf`, and `np.power` of
`inf` to the negative exponent `-1/theta` gives `0.0`; the `v = 0` branch
makes that float behaviour explicit. -/
def claytonPoint (rpow : α → α → α) (theta u v : α) : α :=
  if 0 < u then
    (if v = 0 then 0 else rpow (rpow u (-theta) + rpow v (-theta) - 1) (-1 / theta))
  else 0

/-- The Clayton list comprehension
`[pow(...) if U[i] > 0 else 0 for i in range(len(U))]`: the conditional
reads `V[i]` only in its `U[i] > 0` branch, so a too-short `V` raises
IndexError only when that branch is taken. -/
def claytonRow (rpow : α → α → α) (theta : α) : List α → List α → PyRes (List α)
  | [], _ => .ok []
  | u :: us, [] =>
    if 0 < u then .error .indexError
    else do
      let rest ← claytonRow rpow theta us []
      pure (0 :: rest)
  | u :: us, v :: vs => do
    let rest ← claytonRow rpow theta us vs
    pure (claytonPoint rpow theta u v :: rest)

/-- `Copula._get_cdf` for `cname == 'clayton'`: domain guard, independence
shortcut at `theta = 0`, and the clamped comprehension otherwise. -/
def claytonCdf (rpow : α → α → α) (U V : List α) (theta : α) : PyRes (List α) :=
  if theta < 0 then .error .valueError
  else if theta = 0 then npMultiply U V
  else do
    let cdf ← claytonRow rpow theta U V
    pure (cdf.map (fun x => max x 0))

/-- `Copula._get_cdf` for `cname == 'frank'`: domain guard, independence
shortcut at `theta = 0`, and the vectorised formula otherwise. -/
def frankCdf (rexp rlog : α → α) (U V : List α) (theta : α) : PyRes (List α) :=
  if theta < 0 then .error .valueError
  else if theta = 0 then npMultiply U V
  else do
    let num ← npMultiply (U.map (fun u => rexp (-theta * u) - 1))
      (V.map (fun v => rexp (-theta * v) - 1))
    let den := rexp (-theta) - 1
    pure (num.map (fun n => -1 / theta * rlog (1 + n / den)))

/-- One entry of the Gumbel cdf loop, for `theta > 1`.  `np.log(0.0)` is
`-inf`, making `h = -inf` and `np.exp(h) = 0.0`, so a zero `v` yields `0`;
the second branch makes that float behaviour explicit. -/
def gumbelPoint (rexp rlog : α → α) (rpow : α → α → α) (theta u v : α) : α :=
  if u = 0 then 0
  else if v = 0 then 0
  else rexp (-(rpow (rpow (-(rlog u)) theta + rpow (-(rlog v)) theta) (1 / theta)))

/-- The Gumbel loop `for i in range(len(U))`: the `U[i] == 0` branch appends
`0` without reading `V[i]`, so a too-short `V` raises IndexError only when
`U[i]` is nonzero. -/
def gumbelRow (rexp rlog : α → α) (rpow : α → α → α) (theta : α) :
    List α → List α → PyRes (List α)
  | [], _ => .ok []
  | u :: us, [] =>
    if u = 0 then do
      let rest ← gumbelRow rexp rlog rpow theta us []
      pure (0 :: rest)
    else .error .indexError
  | u :: us, v :: vs => do
    let rest ← gumbelRow rexp rlog rpow theta us vs
    pure (gumbelPoint rexp rlog rpow theta u v :: rest)

/-- `Copula._get_cdf` for `cname == 'gumbel'`: domain guard, independence
shortcut at `theta = 1`, and the loop otherwise. -/
def gumbelCdf (rexp rlog : α → α) (rpow : α → α → α) (U V : List α) (theta : α) :
    PyRes (List α) :=
  if theta < 1 then .error .valueError
  else if theta = 1 then npMultiply U V
  else gumbelRow rexp rlog rpow theta U V

/-- `Copula._get_cdf`: dispatch on the family name; any other name raises
`Exception('Unsupported distribution: ...')`. -/
def getCdf (O : Oracles α) (cname : String) :
    PyRes (List α → List α → α → PyRes (List α)) :=
  if cname = "clayton" then .ok (claytonCdf O.rpow)
  else if cname = "frank" then .ok (frankCdf O.rexp O.rlog)
  else if cname = "gumbel" then .ok (gumbelCdf O.rexp O.rlog O.rpow)
  else .error .unsupported

/-- A constructed `Copula` instance: the attributes stored by `__init__`
(with `dev=False`; the lazy derivative evaluator is outside the claims). -/
structure PyCopula (α : Type) : Type where
  U : List α
  V : List α
  theta : Option α
  cname : Option String
  tau : α
  cdf : Option (List α → List α → α → PyRes (List α))

/-- `Copula.__init__`: store the inputs, compute `tau` through the external
Kendall routine, and if a family name was given estimate the parameter and
build the cdf evaluator (an unknown name raises there). -/
def mkCopula (O : Oracles α) (U V : List α) (theta0 : Option α) (cname : Option String) :
    PyRes (PyCopula α) :=
  let tau := O.kendall U V
  match cname with
  | none => .ok ⟨U, V, theta0, none, tau, none⟩
  | some c => do
    let theta := getParameter O tau theta0 c
    let f ← getCdf O c
    pure ⟨U, V, theta, some c, tau, some f⟩

/-- `left = sum(np.logical_and(u <= base[k], v <= base[k])) / N` at
threshold `base[k] = k/49`: the empirical joint lower probability.  The
float quotient is modelled by the exact field quotient. -/
def leftP (u v : List α) (k : ℕ) : α :=
  (((u.zip v).countP fun p => decide (p.1 ≤ (k : α) / 49 ∧ p.2 ≤ (k : α) / 49)) : ℕ) /
    (u.length : α)

/-- `right = sum(np.logical_and(u >= base[k], v >= base[k])) / N` at
threshold `base[k] = k/49`: the empirical joint upper probability. -/
def rightP (u v : List α) (k : ℕ) : α :=
  (((u.zip v).countP fun p => decide ((k : α) / 49 ≤ p.1 ∧ (k : α) / 49 ≤ p.2)) : ℕ) /
    (u.length : α)

/-- One iteration of the `Copula.compute_empirical` loop at index `k`, with
threshold `b = base[k] = k/49`; the state is `(z_left, L, z_right, R)`.
The source reads `z_right[k]` — not `base[k]` — for the upper-tail
denominator, so the step can raise IndexError.  Counts divided by `N` are
the exact rational values of the float arithmetic; a division by a zero
denominator (possible only at `b = 0` or `b = 1`) is represented by the
field junk value `0` where numpy would produce `inf`. -/
def empiricalStep (u v : List α) (st : List α × List α × List α × List α) (k : ℕ) :
    PyRes (List α × List α × List α × List α) :=
  let zl := st.1
  let L := st.2.1
  let zr := st.2.2.1
  let R := st.2.2.2
  let b : α := (k : α) / 49
  let left : α := leftP u v k
  let right : α := rightP u v k
  let zl := if 0 < left then zl ++ [b] else zl
  let L := if 0 < left then L ++ [left / b ^ 2] else L
  if 0 < right then do
    let zr := zr ++ [b]
    let zk ← pyGet zr k
    pure (zl, L, zr, R ++ [right / (1 - zk) ^ 2])
  else pure (zl, L, zr, R)

/-- `Copula.compute_empirical`: iterate `empiricalStep` over the 50
thresholds of `np.linspace(0.0, 1.0, 50)`.  Inputs of different lengths are
a numpy broadcast failure, and empty inputs make `sum(...)/N` divide by
zero. -/
def computeEmpirical (u v : List α) : PyRes (List α × List α × List α × List α) :=
  if u.length ≠ v.length then .error .broadcastError
  else if u.length = 0 then .error .zeroDivisionError
  else (List.range 50).foldlM (empiricalStep u v) ([], [], [], [])

/-- The lambda `g` of `select_copula`: the upper-tail transform
`(1 - 2z + C) / (1 - z)^2`, elementwise. -/
def selG (c z : List α) : PyRes (List α) := do
  let num ← npZip (fun ci zi => 1 - 2 * zi + ci) c z
  npZip (fun ni di => ni / di) num (z.map fun zi => (1 - zi) ^ 2)

/-- `np.sum((E - t)**2)`: the sum of squared deviations between an
empirical profile `E` and a theoretical profile `t`. -/
def costOf (E t : List α) : PyRes α := do
  let d ← npZip (fun a b => a - b) E t
  pure (d.map fun x => x ^ 2).sum

/-- The last step of `select_copula`: `bestC = np.argmax(cost_LR)` followed
by the lookup `paramC = theta_c[bestC]`. -/
def selFinish (theta_c cost_LR : List α) : PyRes (ℕ × α) := do
  let bestC ← npArgmax cost_LR
  let paramC ← pyGet theta_c bestC
  pure (bestC, paramC)

/-- `Copula.select_copula`: fit the three families, short-circuit on
`clayton_c.tau <= 0`, otherwise compare tail-dependence profiles.  Note
`cost_L + cost_R` on Python lists concatenates, so `cost_LR` has six
entries. -/
def selectCopula (O : Oracles α) (U V : List α) : PyRes (ℕ × α) := do
  let clayton_c ← mkCopula O U V none (some "clayton")
  let frank_c ← mkCopula O U V none (some "frank")
  let gumbel_c ← mkCopula O U V none (some "gumbel")
  let tc ← pyAttr clayton_c.theta
  let tf ← pyAttr frank_c.theta
  let tg ← pyAttr gumbel_c.theta
  let theta_c := [tc, tf, tg]
  if clayton_c.tau ≤ 0 then
    pure (2, tf)
  else do
    let e ← computeEmpirical U V
    let z_left := e.1
    let L := e.2.1
    let z_right := e.2.2.1
    let R := e.2.2.2
    let ccdf ← pyAttr clayton_c.cdf
    let fcdf ← pyAttr frank_c.cdf
    let gcdf ← pyAttr gumbel_c.cdf
    let lc0 ← ccdf z_left z_left tc
    let ld0 ← npZip (fun a b => a / b) lc0 (z_left.map fun z => z ^ 2)
    let lc1 ← fcdf z_left z_left tf
    let ld1 ← npZip (fun a b => a / b) lc1 (z_left.map fun z => z ^ 2)
    let lc2 ← gcdf z_left z_left tg
    let ld2 ← npZip (fun a b => a / b) lc2 (z_left.map fun z => z ^ 2)
    let rc0 ← ccdf z_right z_right tc
    let rd0 ← selG rc0 z_right
    let rc1 ← fcdf z_right z_right tf
    let rd1 ← selG rc1 z_right
    let rc2 ← gcdf z_right z_right tg
    let rd2 ← selG rc2 z_right
    let c0 ← costOf L ld0
    let c1 ← costOf L ld1
    let c2 ← costOf L ld2
    let d0 ← costOf R rd0
    let d1 ← costOf R rd1
    let d2 ← costOf R rd2
    let cost_L := [c0, c1, c2]
    let cost_R := [d0, d1, d2]
    let cost_LR := cost_L ++ cost_R
    selFinish theta_c cost_LR

/-- Modelled from the spec: the combination and selection step as the spec
words it — a combined cost per family (lower plus upper sum of squared
deviations) and the family of the largest combined cost returned together
with its fitted parameter.  The source of `select_copula` is the authority;
this definition exists only to be compared against it. -/
def specFamilyPick (theta_c cost_L cost_R : List α) : PyRes (ℕ × α) := do
  let combined := List.zipWith (fun l r => l + r) cost_L cost_R
  let bestC ← npArgmax combined
  let paramC ← pyGet theta_c bestC
  pure (bestC, paramC)

/-- Modelled from the spec: the Frank objective as the spec words it, with
the value of `debye(-alpha)` obtained from the quadrature
`quad(debye, eps, alpha)[0] / alpha`.  The source `_frank_help` is the
authority; this definition exists only to be compared against it. -/
def specFrankObjective (O : Oracles α) (tau : α) (alpha : α) : α :=
  let debye : α → α := fun t => t / (O.rexp t - 1)
  let debye_value : α := O.quad debye floatEpsilon alpha / alpha
  ((1 - tau) / 4 - (debye_value - 1) / alpha) ^ 2

/- Concrete rational instantiations of the external routines, used to run
the embedded code on explicit inputs.  `Oneg.kendall` returns `-1`, the
exact Kendall tau of the discordant pair `U = [0, 1]`, `V = [1, 0]`;
`Opos.kendall` returns `1`, the exact Kendall tau of any strictly
concordant pair such as `U = V = [1/2, 9/10]`.  The remaining fields are
arbitrary total stand-ins for the numeric library calls. -/

/-- Concrete oracles for a data set with Kendall tau `-1`; `fmin` returns
`0`, so the fitted Frank theta is `-0 = 0`. -/
def Oneg : Oracles ℚ :=
  { kendall := fun _ _ => -1
    fmin := fun _ _ => 0
    quad := fun _ _ _ => 0
    rexp := fun x => x + 1
    rlog := fun x => x - 1
    rpow := fun x y => x * y }

/-- Concrete oracles for a data set with Kendall tau `1`; `fmin` returns
`-3`, so the fitted Frank theta is `3`. -/
def Opos : Oracles ℚ :=
  { kendall := fun _ _ => 1
    fmin := fun _ _ => -3
    quad := fun _ _ _ => 0
    rexp := fun x => x + 1
    rlog := fun x => x - 1
    rpow := fun x y => x * y }

/-- Oracles whose quadrature routine returns the constant `0`, otherwise
identical to `OquadOne`; the pair differs only in `quad`. -/
def OquadZero : Oracles ℚ :=
  { kendall := fun _ _ => 0
    fmin := fun _ _ => 0
    quad := fun _ _ _ => 0
    rexp := fun x => x + 1
    rlog := fun x => x - 1
    rpow := fun x y => x * y }

/-- Oracles whose quadrature routine returns the constant `1`, otherwise
identical to `OquadZero`. -/
def OquadOne : Oracles ℚ :=
  { kendall := fun _ _ => 0
    fmin := fun _ _ => 0
    quad := fun _ _ _ => 1
    rexp := fun x => x + 1
    rlog := fun x => x - 1
    rpow := fun x y => x * y }

section ConcreteEvaluation

attribute [local semireducible] Rat.add Rat.mul Rat.inv Rat.sub Rat.ofScientific

set_option maxRecDepth 400000

/-- C1: the short-circuit of `select_copula` at `U = [0, 1]`, `V = [1, 0]`
(Kendall tau `-1 ≤ 0`).  The call completes and returns the pair
`(2, frank theta)`: the index is `2`, which in the fitted-theta list
`theta_c = [clayton, frank, gumbel]` built by the same function is
Gumbel's position — not Frank's position `1` — while the parameter
returned is Frank's fitted theta (here `0`, not Gumbel's `1/2`).  The
claimed behaviour, returning Frank as the selected family together with
Frank's theta, does not hold of the returned index. -/
theorem C1_shortcircuit_returns_index_two :
    selectCopula Oneg [0, 1] [1, 0] = .ok (2, frankTheta Oneg (-1)) ∧
    frankTheta Oneg (-1) = 0 ∧
    gumbelTheta (-1 : ℚ) = 1 / 2 ∧
    frankTheta Oneg (-1) ≠ gumbelTheta (-1 : ℚ) := by
  refine ⟨by decide, by decide, by decide, by decide⟩

/-- C2 counterexample: a completed call of `select_copula` whose returned
theta is not the fitted parameter of the family at the returned index.  At
`U = [0, 1]`, `V = [1, 0]` the call completes with `(2, 0)`; index `2` of
the fitted-theta list `[clayton, frank, gumbel]` is Gumbel, whose fitted
parameter is `1/2 ≠ 0`, and `0` also lies outside Gumbel's valid domain
`theta ≥ 1`. -/
theorem C2_counterexample :
    selectCopula Oneg [0, 1] [1, 0] = .ok (2, 0) ∧
    gumbelTheta (-1 : ℚ) = 1 / 2 ∧
    (0 : ℚ) ≠ 1 / 2 ∧
    ¬(1 ≤ (0 : ℚ)) := by
  refine ⟨by decide, by decide, by decide, by decide⟩

/-- C3 counterexample.  The combination-and-selection step of
`select_copula` (lines 215-218 of the source, embedded as `selFinish` on
the Python-list concatenation `cost_L ++ cost_R`) is a pure function of
the three lower-tail and three upper-tail costs, whatever run produced
them; costs are sums of squared deviations, so any nonnegative values can
arise.  At the explicit cost configuration `cost_L = [4, 3, 0]`,
`cost_R = [0, 2, 0]` the claim's rule — return the family whose combined
(lower plus upper) cost is largest, here the combined costs are
`[4 + 0, 3 + 2, 0 + 0] = [4, 5, 0]` with the largest at Frank (index 1) —
yields `(1, theta_c[1])`, but the code argmaxes the six-entry concatenation
`[4, 3, 0, 0, 2, 0]` and returns `(0, theta_c[0])`, Clayton.  At
`cost_L = [0, 1, 0]`, `cost_R = [5, 0, 0]` the claim's rule yields
Clayton, while the code's argmax lands at position `3` of the six-entry
vector and `theta_c[3]` raises IndexError, so no family is returned at
all. -/
theorem C3_counterexample :
    (specFamilyPick [(10000 : ℚ), 5, 10000] [4, 3, 0] [0, 2, 0] = .ok (1, 5) ∧
     selFinish [(10000 : ℚ), 5, 10000] ([4, 3, 0] ++ [0, 2, 0]) = .ok (0, 10000)) ∧
    (specFamilyPick [(10000 : ℚ), 5, 10000] [0, 1, 0] [5, 0, 0] = .ok (0, 10000) ∧
     selFinish [(10000 : ℚ), 5, 10000] ([0, 1, 0] ++ [5, 0, 0]) = .error .indexError) := by
  refine ⟨⟨by decide, by decide⟩, ⟨by decide, by decide⟩⟩

/-- C7: the objective `_frank_help` does not depend on the quadrature
routine at all — the integral `quad(debye, eps, alpha)[0]/alpha` is bound
to `debye_value` and never used — whereas the spec-described objective,
which feeds the integral in as the value of `debye(-alpha)`, does depend
on it.  Evaluated at `tau = 0`, `alpha = 1` with the two quadrature
stand-ins returning `0` and `1`. -/
theorem C7_quadrature_unused :
    frankHelp OquadZero 0 1 = frankHelp OquadOne 0 1 ∧
    specFrankObjective OquadZero 0 1 = 25 / 16 ∧
    specFrankObjective OquadOne 0 1 = 1 / 16 ∧
    specFrankObjective OquadZero 0 1 ≠ specFrankObjective OquadOne 0 1 := by
  refine ⟨rfl, by decide, by decide, by decide⟩

end ConcreteEvaluation

/-- C4: constructing with family `clayton` stores
`theta = 2*tau/(1-tau)`, with the sentinel `10000` at `tau == 1`;
constructing with family `gumbel` stores `theta = 1/(1-tau)`, with the
same sentinel at `tau == 1`.  `tau` is the value produced by the external
Kendall routine on the construction data. -/
theorem C4_clayton_gumbel_theta (O : Oracles α) (U V : List α) (t0 : Option α) :
    (mkCopula O U V t0 (some "clayton")).map PyCopula.theta =
      .ok (some (if O.kendall U V = 1 then (10000 : α)
                 else 2 * O.kendall U V / (1 - O.kendall U V))) ∧
    (mkCopula O U V t0 (some "gumbel")).map PyCopula.theta =
      .ok (some (if O.kendall U V = 1 then (10000 : α)
                 else 1 / (1 - O.kendall U V))) := by
  constructor <;> rfl

/-- C5: for each family, the cdf evaluated at the family's
independence-parameter value (Clayton `theta = 0`, Frank `theta = 0`,
Gumbel `theta = 1`) on equal-length inputs is exactly the elementwise
product `U*V`, whatever the transcendental primitives are. -/
theorem C5_independence (rexp rlog : α → α) (rpow : α → α → α) (U V : List α)
    (h : U.length = V.length) :
    claytonCdf rpow U V 0 = .ok (List.zipWith (fun a b => a * b) U V) ∧
    frankCdf rexp rlog U V 0 = .ok (List.zipWith (fun a b => a * b) U V) ∧
    gumbelCdf rexp rlog rpow U V 1 = .ok (List.zipWith (fun a b => a * b) U V) := by
  refine ⟨?_, ?_, ?_⟩
  · rw [claytonCdf, if_neg (lt_irrefl 0), if_pos rfl, npMultiply, npZip, if_pos h]
  · rw [frankCdf, if_neg (lt_irrefl 0), if_pos rfl, npMultiply, npZip, if_pos h]
  · rw [gumbelCdf, if_neg (lt_irrefl 1), if_pos rfl, npMultiply, npZip, if_pos h]

instance : LawfulMonad PyRes :=
  LawfulMonad.mk'
    PyRes
    (fun x => by cases x <;> rfl)
    (fun x f => rfl)
    (fun x f g => by cases x <;> rfl)

theorem PyRes.bind_eq_ok {β γ : Type} {x : PyRes β} {f : β → PyRes γ} {r : γ} :
    (x >>= f) = .ok r ↔ ∃ a, x = .ok a ∧ f a = .ok r := by
  cases x with
  | ok a => simp [PyRes.ok_bind]
  | error e =>
    simp only [PyRes.error_bind]
    constructor
    · intro h; cases h
    · rintro ⟨a, h, -⟩; cases h

@[simp] theorem pyAttr_some {β : Type} (a : β) : pyAttr (some a) = .ok a := rfl

theorem pyGet_eq_ok {β : Type} {xs : List β} {i : ℕ} {x : β} :
    pyGet xs i = .ok x ↔ xs.get? i = some x := by
  rw [pyGet]
  cases h : xs.get? i <;> simp_all

/-- Constructing with the name `clayton` always succeeds and stores the
tau-derived Clayton estimate together with the Clayton cdf evaluator. -/
theorem mkCopula_clayton (O : Oracles α) (U V : List α) (t0 : Option α) :
    mkCopula O U V t0 (some "clayton") =
      .ok ⟨U, V, some (claytonTheta (O.kendall U V)), some "clayton",
           O.kendall U V, some (claytonCdf O.rpow)⟩ := rfl

/-- Constructing with the name `frank` always succeeds and stores the
minimiser-derived Frank estimate together with the Frank cdf evaluator. -/
theorem mkCopula_frank (O : Oracles α) (U V : List α) (t0 : Option α) :
    mkCopula O U V t0 (some "frank") =
      .ok ⟨U, V, some (frankTheta O (O.kendall U V)), some "frank",
           O.kendall U V, some (frankCdf O.rexp O.rlog)⟩ := rfl

/-- Constructing with the name `gumbel` always succeeds and stores the
tau-derived Gumbel estimate together with the Gumbel cdf evaluator. -/
theorem mkCopula_gumbel (O : Oracles α) (U V : List α) (t0 : Option α) :
    mkCopula O U V t0 (some "gumbel") =
      .ok ⟨U, V, some (gumbelTheta (O.kendall U V)), some "gumbel",
           O.kendall U V, some (gumbelCdf O.rexp O.rlog O.rpow)⟩ := rfl

/-- A successful run of the final selection step looks its parameter up at
the argmax index, so that index is within the parameter list. -/
theorem selFinish_ok {ts cs : List α} {r : ℕ × α} (h : selFinish ts cs = .ok r) :
    r.1 < ts.length ∧ ts.getD r.1 0 = r.2 := by
  rw [selFinish] at h
  obtain ⟨b, hb, h⟩ := PyRes.bind_eq_ok.1 h
  obtain ⟨p, hp, h⟩ := PyRes.bind_eq_ok.1 h
  rw [PyRes.pure_eq_ok] at h
  cases h
  have hg := pyGet_eq_ok.1 hp
  constructor
  · exact List.get?_eq_some.1 hg |>.1
  · rw [List.getD_eq_get?, hg]; rfl

theorem PyRes.bind_eq_error {β γ : Type} {x : PyRes β} {f : β → PyRes γ} {e : PyErr} :
    (x >>= f) = .error e ↔ x = .error e ∨ ∃ a, x = .ok a ∧ f a = .error e := by
  cases x with
  | ok a => simp [PyRes.ok_bind]
  | error e2 =>
    simp only [PyRes.error_bind]
    constructor
    · intro h; cases h; exact Or.inl rfl
    · rintro (h | ⟨a, h, -⟩) <;> cases h; rfl

/-- The Clayton comprehension itself can only fail with an IndexError. -/
theorem claytonRow_error {rpow : α → α → α} {θ : α} :
    ∀ {U V : List α} {e : PyErr}, claytonRow rpow θ U V = .error e → e = .indexError := by
  intro U
  induction U with
  | nil => intro V e h; cases h
  | cons u us ih =>
    intro V e h
    cases V with
    | nil =>
      rw [claytonRow] at h
      split at h
      · cases h; rfl
      · rcases PyRes.bind_eq_error.1 h with h2 | ⟨a, -, h2⟩
        · exact ih h2
        · cases h2
    | cons v vs =>
      rw [claytonRow] at h
      rcases PyRes.bind_eq_error.1 h with h2 | ⟨a, -, h2⟩
      · exact ih h2
      · cases h2

/-- The Gumbel loop itself can only fail with an IndexError. -/
theorem gumbelRow_error {rexp rlog : α → α} {rpow : α → α → α} {θ : α} :
    ∀ {U V : List α} {e : PyErr}, gumbelRow rexp rlog rpow θ U V = .error e → e = .indexError := by
  intro U
  induction U with
  | nil => intro V e h; cases h
  | cons u us ih =>
    intro V e h
    cases V with
    | nil =>
      rw [gumbelRow] at h
      split at h
      · rcases PyRes.bind_eq_error.1 h with h2 | ⟨a, -, h2⟩
        · exact ih h2
        · cases h2
      · cases h; rfl
    | cons v vs =>
      rw [gumbelRow] at h
      rcases PyRes.bind_eq_error.1 h with h2 | ⟨a, -, h2⟩
      · exact ih h2
      · cases h2

/-- The elementwise operations can only fail with a broadcast error. -/
theorem npZip_error {f : α → α → α} {xs ys : List α} {e : PyErr}
    (h : npZip f xs ys = .error e) : e = .broadcastError := by
  rw [npZip] at h
  split at h
  · cases h
  · cases h; rfl

/-- Witness for C5 at a concrete equal-length input. -/
theorem C5_independence_witness :
    claytonCdf (fun x y => x * y) [(1 : ℚ)/2] [(1 : ℚ)/3] 0 =
      .ok (List.zipWith (fun a b => a * b) [(1 : ℚ)/2] [(1 : ℚ)/3]) ∧
    frankCdf (fun x => x + 1) (fun x => x - 1) [(1 : ℚ)/2] [(1 : ℚ)/3] 0 =
      .ok (List.zipWith (fun a b => a * b) [(1 : ℚ)/2] [(1 : ℚ)/3]) ∧
    gumbelCdf (fun x => x + 1) (fun x => x - 1) (fun x y => x * y)
        [(1 : ℚ)/2] [(1 : ℚ)/3] 1 =
      .ok (List.zipWith (fun a b => a * b) [(1 : ℚ)/2] [(1 : ℚ)/3]) :=
  C5_independence (fun x => x + 1) (fun x => x - 1) (fun x y => x * y)
    [(1 : ℚ)/2] [(1 : ℚ)/3] rfl

/-- C6: the cdf evaluators raise `ValueError` (the spec's
InvalidParameterError) exactly on parameters outside the family domain —
Clayton and Frank for `theta < 0`, Gumbel for `theta < 1` — for every
input pair, even a malformed one, because the guard runs before any
elementwise computation; and for a parameter inside the domain that error
is never raised (any later failure is a shape or index error, a different
exception). -/
theorem C6_invalid_parameter (rexp rlog : α → α) (rpow : α → α → α) (U V : List α) (θ : α) :
    (θ < 0 → claytonCdf rpow U V θ = .error .valueError ∧
             frankCdf rexp rlog U V θ = .error .valueError) ∧
    (θ < 1 → gumbelCdf rexp rlog rpow U V θ = .error .valueError) ∧
    (0 ≤ θ → claytonCdf rpow U V θ ≠ .error .valueError ∧
             frankCdf rexp rlog U V θ ≠ .error .valueError) ∧
    (1 ≤ θ → gumbelCdf rexp rlog rpow U V θ ≠ .error .valueError) := by
  refine ⟨fun h => ⟨?_, ?_⟩, fun h => ?_, fun h => ⟨?_, ?_⟩, fun h => ?_⟩
  · rw [claytonCdf, if_pos h]
  · rw [frankCdf, if_pos h]
  · rw [gumbelCdf, if_pos h]
  · intro hc
    rw [claytonCdf, if_neg (not_lt.2 h)] at hc
    split at hc
    · exact absurd (npZip_error hc) (by simp)
    · rcases PyRes.bind_eq_error.1 hc with h2 | ⟨a, -, h2⟩
      · exact absurd (claytonRow_error h2) (by simp)
      · cases h2
  · intro hc
    rw [frankCdf, if_neg (not_lt.2 h)] at hc
    split at hc
    · exact absurd (npZip_error hc) (by simp)
    · rcases PyRes.bind_eq_error.1 hc with h2 | ⟨a, -, h2⟩
      · exact absurd (npZip_error h2) (by simp)
      · cases h2
  · intro hc
    rw [gumbelCdf, if_neg (not_lt.2 h)] at hc
    split at hc
    · exact absurd (npZip_error hc) (by simp)
    · exact absurd (gumbelRow_error hc) (by simp)

/-- Witness for C6: Clayton and Frank raise at `theta = -1`, Gumbel raises
at `theta = 1/2`, and an in-domain `theta` raises no such error. -/
theorem C6_invalid_parameter_witness :
    claytonCdf (fun x y => x * y) [(1 : ℚ)/10] [(1 : ℚ)/10] (-1) = .error .valueError ∧
    frankCdf (fun x => x + 1) (fun x => x - 1) [(1 : ℚ)/10] [(1 : ℚ)/10] (-1) =
      .error .valueError ∧
    gumbelCdf (fun x => x + 1) (fun x => x - 1) (fun x y => x * y)
      [(1 : ℚ)/10] [(1 : ℚ)/10] (1/2) = .error .valueError ∧
    claytonCdf (fun x y => x * y) [(1 : ℚ)/10] [(1 : ℚ)/10] 5 ≠ .error .valueError := by
  have h1 := C6_invalid_parameter (fun x => x + 1) (fun x => x - 1) (fun x y => x * y)
    [(1 : ℚ)/10] [(1 : ℚ)/10] (-1)
  have h2 := C6_invalid_parameter (fun x => x + 1) (fun x => x - 1) (fun x y => x * y)
    [(1 : ℚ)/10] [(1 : ℚ)/10] (1/2)
  have h5 := C6_invalid_parameter (fun x => x + 1) (fun x => x - 1) (fun x y => x * y)
    [(1 : ℚ)/10] [(1 : ℚ)/10] 5
  exact ⟨(h1.1 (by norm_num)).1, (h1.1 (by norm_num)).2, h2.2.1 (by norm_num),
    (h5.2.2.1 (by norm_num)).1⟩

/-- C10: for the three supported family names the caller-supplied theta is
irrelevant — the constructed instance is identical whatever was passed —
and the stored theta is the tau-derived estimate of the parameter
estimator for that family. -/
theorem C10_constructor_theta_overwritten (O : Oracles α) (U V : List α)
    (t0 t1 : Option α) (cname : String)
    (h : cname = "clayton" ∨ cname = "frank" ∨ cname = "gumbel") :
    mkCopula O U V t0 (some cname) = mkCopula O U V t1 (some cname) ∧
    (mkCopula O U V t0 (some cname)).map PyCopula.theta =
      .ok (some (if cname = "clayton" then claytonTheta (O.kendall U V)
                 else if cname = "frank" then frankTheta O (O.kendall U V)
                 else gumbelTheta (O.kendall U V))) := by
  rcases h with h | h | h <;> subst h <;> exact ⟨rfl, rfl⟩

/-- Witness for C10: two different caller thetas produce the same
instance, and the stored theta is the Clayton estimate. -/
theorem C10_constructor_theta_overwritten_witness :
    mkCopula Opos [1/2, 9/10] [1/2, 9/10] (some 42) (some "clayton") =
      mkCopula Opos [1/2, 9/10] [1/2, 9/10] (some (-7)) (some "clayton") ∧
    (mkCopula Opos [1/2, 9/10] [1/2, 9/10] (some 42) (some "clayton")).map PyCopula.theta =
      .ok (some (if "clayton" = "clayton"
                 then claytonTheta (Opos.kendall [1/2, 9/10] [1/2, 9/10])
                 else if "clayton" = "frank"
                 then frankTheta Opos (Opos.kendall [1/2, 9/10] [1/2, 9/10])
                 else gumbelTheta (Opos.kendall [1/2, 9/10] [1/2, 9/10]))) :=
  C10_constructor_theta_overwritten Opos [1/2, 9/10] [1/2, 9/10]
    (some 42) (some (-7)) "clayton" (Or.inl rfl)

/-- C2 amended: whenever `select_copula` completes, the returned index is
one of `{0, 1, 2}`; when Clayton's tau is positive the returned theta is
the entry of the fitted-theta list `[clayton, frank, gumbel]` at the
returned index; but when Clayton's tau is `≤ 0` the call returns index `2`
paired with Frank's fitted theta (which the counterexample shows need not
be the indexed family's parameter nor lie in its domain). -/
theorem C2_amended (O : Oracles α) (U V : List α) (r : ℕ × α)
    (h : selectCopula O U V = .ok r) :
    r.1 < 3 ∧
    (O.kendall U V ≤ 0 → r = (2, frankTheta O (O.kendall U V))) ∧
    (¬O.kendall U V ≤ 0 →
      r.2 = [claytonTheta (O.kendall U V), frankTheta O (O.kendall U V),
             gumbelTheta (O.kendall U V)].getD r.1 0) := by
  rw [selectCopula, mkCopula_clayton, mkCopula_frank, mkCopula_gumbel] at h
  simp only [PyRes.ok_bind, pyAttr_some] at h
  by_cases ht : O.kendall U V ≤ 0
  · rw [if_pos ht] at h
    rw [PyRes.pure_eq_ok] at h
    cases h
    refine ⟨by norm_num, fun _ => rfl, fun hc => absurd ht hc⟩
  · rw [if_neg ht] at h
    obtain ⟨e4, -, h⟩ := PyRes.bind_eq_ok.1 h
    obtain ⟨x1, -, h⟩ := PyRes.bind_eq_ok.1 h
    obtain ⟨x2, -, h⟩ := PyRes.bind_eq_ok.1 h
    obtain ⟨x3, -, h⟩ := PyRes.bind_eq_ok.1 h
    obtain ⟨x4, -, h⟩ := PyRes.bind_eq_ok.1 h
    obtain ⟨x5, -, h⟩ := PyRes.bind_eq_ok.1 h
    obtain ⟨x6, -, h⟩ := PyRes.bind_eq_ok.1 h
    obtain ⟨x7, -, h⟩ := PyRes.bind_eq_ok.1 h
    obtain ⟨x8, -, h⟩ := PyRes.bind_eq_ok.1 h
    obtain ⟨x9, -, h⟩ := PyRes.bind_eq_ok.1 h
    obtain ⟨x10, -, h⟩ := PyRes.bind_eq_ok.1 h
    obtain ⟨x11, -, h⟩ := PyRes.bind_eq_ok.1 h
    obtain ⟨x12, -, h⟩ := PyRes.bind_eq_ok.1 h
    obtain ⟨x13, -, h⟩ := PyRes.bind_eq_ok.1 h
    obtain ⟨x14, -, h⟩ := PyRes.bind_eq_ok.1 h
    obtain ⟨x15, -, h⟩ := PyRes.bind_eq_ok.1 h
    obtain ⟨x16, -, h⟩ := PyRes.bind_eq_ok.1 h
    obtain ⟨x17, -, h⟩ := PyRes.bind_eq_ok.1 h
    obtain ⟨x18, -, h⟩ := PyRes.bind_eq_ok.1 h
    have hfin := selFinish_ok h
    refine ⟨by simpa using hfin.1, fun hc => absurd hc ht, fun _ => hfin.2.symm⟩

/-- Witness for the amended C2 at the concrete short-circuit run. -/
theorem C2_amended_witness :
    (2 : ℕ) < 3 ∧
    (Oneg.kendall [0, 1] [1, 0] ≤ 0 →
      ((2, 0) : ℕ × ℚ) = (2, frankTheta Oneg (Oneg.kendall [0, 1] [1, 0]))) ∧
    (¬Oneg.kendall [0, 1] [1, 0] ≤ 0 →
      (0 : ℚ) = [claytonTheta (Oneg.kendall [0, 1] [1, 0]),
                 frankTheta Oneg (Oneg.kendall [0, 1] [1, 0]),
                 gumbelTheta (Oneg.kendall [0, 1] [1, 0])].getD 2 0) :=
  C2_amended Oneg [0, 1] [1, 0] (2, 0) (by decide)

/-- C3 amended: the three lower-tail costs and the three upper-tail costs
are combined by Python list concatenation into a single six-entry vector
(not one combined cost per family); the code then returns the first argmax
position of that six-entry vector together with `theta_c` at that
position, and when the argmax falls in the upper-tail half (position `≥ 3`)
the parameter lookup raises IndexError instead of returning a family. -/
theorem C3_amended (theta_c cost_L cost_R : List α) (b : ℕ)
    (hT : theta_c.length = 3)
    (hb : npArgmax (cost_L ++ cost_R) = .ok b) :
    (b < 3 → selFinish theta_c (cost_L ++ cost_R) = .ok (b, theta_c.getD b 0)) ∧
    (3 ≤ b → selFinish theta_c (cost_L ++ cost_R) = .error .indexError) := by
  constructor
  · intro hlt
    have hlen : b < theta_c.length := by omega
    rw [selFinish, hb, PyRes.ok_bind]
    have hg : theta_c.get? b = some (theta_c.getD b 0) := by
      rw [List.get?_eq_get hlen, List.getD_eq_get?, List.get?_eq_get hlen]
      rfl
    rw [pyGet, hg]
    rfl
  · intro hge
    have hg : theta_c.get? b = none := List.get?_eq_none.2 (by omega)
    rw [selFinish, hb, PyRes.ok_bind, pyGet, hg]
    rfl

/-- The filtered threshold subset of the 50-point grid on which the
lower-tail count is positive, as threshold values `k/49`. -/
def leftThresholds (u v : List α) (n : ℕ) : List α :=
  ((List.range n).filter fun k => decide (0 < leftP u v k)).map (fun k : ℕ => ((k : α) / 49))

/-- The lower-tail statistics `L(z) = P(U ≤ z, V ≤ z) / z²` over the same
filtered threshold subset as `leftThresholds`. -/
def leftStats (u v : List α) (n : ℕ) : List α :=
  ((List.range n).filter fun k => decide (0 < leftP u v k)).map
    (fun k : ℕ => leftP u v k / ((k : α) / 49) ^ 2)

/-- The filtered threshold subset of the grid on which the upper-tail
count is positive. -/
def rightThresholds (u v : List α) (n : ℕ) : List α :=
  ((List.range n).filter fun k => decide (0 < rightP u v k)).map (fun k : ℕ => ((k : α) / 49))

/-- The upper-tail statistics `R(z) = P(U ≥ z, V ≥ z) / (1-z)²` over the
same filtered threshold subset as `rightThresholds`. -/
def rightStats (u v : List α) (n : ℕ) : List α :=
  ((List.range n).filter fun k => decide (0 < rightP u v k)).map
    (fun k : ℕ => rightP u v k / (1 - (k : α) / 49) ^ 2)

/-- The upper-tail count is antitone in the threshold index, so a positive
count at `k` forces a positive count at every earlier threshold.  This is
what keeps the source's read of `z_right[k]` in bounds. -/
theorem rightP_pos_mono (u v : List α) (hN : u.length ≠ 0) {j k : ℕ} (hjk : j ≤ k)
    (hk : 0 < rightP u v k) : 0 < rightP u v j := by
  have hNpos : (0 : α) < (u.length : α) := by exact_mod_cast Nat.pos_of_ne_zero hN
  rw [rightP] at hk ⊢
  have hbj : (j : α) / 49 ≤ (k : α) / 49 := by
    apply (div_le_div_right (by norm_num : (0 : α) < 49)).2
    exact_mod_cast hjk
  have hcount : ((u.zip v).countP fun p => decide ((k : α) / 49 ≤ p.1 ∧ (k : α) / 49 ≤ p.2)) ≤
      ((u.zip v).countP fun p => decide ((j : α) / 49 ≤ p.1 ∧ (j : α) / 49 ≤ p.2)) := by
    apply List.countP_mono_left
    intro p _ hpk
    simp only [decide_eq_true_eq] at hpk ⊢
    exact ⟨hbj.trans hpk.1, hbj.trans hpk.2⟩
  have hkpos :
      0 < ((u.zip v).countP fun p => decide ((k : α) / 49 ≤ p.1 ∧ (k : α) / 49 ≤ p.2)) := by
    by_contra h0
    push_neg at h0
    rw [Nat.le_zero.1 h0] at hk
    simp at hk
  apply div_pos _ hNpos
  exact_mod_cast lt_of_lt_of_le hkpos hcount

/-- When the upper-tail count at `n` is positive, every earlier threshold
passed the filter, so the accumulated `z_right` has exactly `n` entries. -/
theorem rightThresholds_length (u v : List α) (hN : u.length ≠ 0) {n : ℕ}
    (hn : 0 < rightP u v n) : (rightThresholds u v n).length = n := by
  rw [rightThresholds, List.length_map]
  have : (List.range n).filter (fun k => decide (0 < rightP u v k)) = List.range n := by
    rw [List.filter_eq_self]
    intro a ha
    rw [decide_eq_true_eq]
    exact rightP_pos_mono u v hN (le_of_lt (List.mem_range.1 ha)) hn
  rw [this, List.length_range]

/-- One unfolding of the accumulated profiles: processing threshold `n`
appends to the filtered lists exactly when the counts are positive. -/
theorem empirical_fold (u v : List α) (hN : u.length ≠ 0) (n : ℕ) :
    (List.range n).foldlM (empiricalStep u v) ([], [], [], []) =
      .ok (leftThresholds u v n, leftStats u v n, rightThresholds u v n, rightStats u v n) := by
  induction n with
  | zero => rfl
  | succ n ih =>
    rw [List.range_succ, List.foldlM_append, ih, PyRes.ok_bind]
    have hstep :
        List.foldlM (empiricalStep u v)
          (leftThresholds u v n, leftStats u v n, rightThresholds u v n, rightStats u v n) [n] =
        empiricalStep u v
          (leftThresholds u v n, leftStats u v n, rightThresholds u v n, rightStats u v n) n
          >>= pure := rfl
    rw [hstep, bind_pure]
    have hzl : leftThresholds u v (n + 1) =
        if 0 < leftP u v n then leftThresholds u v n ++ [(n : α) / 49]
        else leftThresholds u v n := by
      rw [leftThresholds, leftThresholds, List.range_succ, List.filter_append,
        List.map_append, List.filter_cons, List.filter_nil]
      by_cases hl : 0 < leftP u v n
      · rw [if_pos hl, if_pos (decide_eq_true hl)]; rfl
      · rw [if_neg hl, if_neg (by simpa using hl)]; simp
    have hls : leftStats u v (n + 1) =
        if 0 < leftP u v n then leftStats u v n ++ [leftP u v n / ((n : α) / 49) ^ 2]
        else leftStats u v n := by
      rw [leftStats, leftStats, List.range_succ, List.filter_append,
        List.map_append, List.filter_cons, List.filter_nil]
      by_cases hl : 0 < leftP u v n
      · rw [if_pos hl, if_pos (decide_eq_true hl)]; rfl
      · rw [if_neg hl, if_neg (by simpa using hl)]; simp
    have hzr : rightThresholds u v (n + 1) =
        if 0 < rightP u v n then rightThresholds u v n ++ [(n : α) / 49]
        else rightThresholds u v n := by
      rw [rightThresholds, rightThresholds, List.range_succ, List.filter_append,
        List.map_append, List.filter_cons, List.filter_nil]
      by_cases hr : 0 < rightP u v n
      · rw [if_pos hr, if_pos (decide_eq_true hr)]; rfl
      · rw [if_neg hr, if_neg (by simpa using hr)]; simp
    have hrs : rightStats u v (n + 1) =
        if 0 < rightP u v n then rightStats u v n ++ [rightP u v n / (1 - (n : α) / 49) ^ 2]
        else rightStats u v n := by
      rw [rightStats, rightStats, List.range_succ, List.filter_append,
        List.map_append, List.filter_cons, List.filter_nil]
      by_cases hr : 0 < rightP u v n
      · rw [if_pos hr, if_pos (decide_eq_true hr)]; rfl
      · rw [if_neg hr, if_neg (by simpa using hr)]; simp
    rw [empiricalStep]
    dsimp only
    by_cases hr : 0 < rightP u v n
    · rw [if_pos hr]
      have hget : (rightThresholds u v n ++ [(n : α) / 49]).get? n = some ((n : α) / 49) := by
        have h2 := List.get?_concat_length (rightThresholds u v n) ((n : α) / 49)
        rwa [rightThresholds_length u v hN hr] at h2
      rw [pyGet, hget, PyRes.ok_bind, PyRes.pure_eq_ok, hzl, hls, hzr, hrs,
        if_pos hr, if_pos hr]
    · rw [if_neg hr, PyRes.pure_eq_ok, hzl, hls, hzr, hrs, if_neg hr, if_neg hr]

/-- C8: on equal-length nonempty inputs, `compute_empirical` uses the
50-threshold grid `k/49`, keeps exactly the thresholds with positive joint
count for each tail, and records the statistics
`L(z) = P(U ≤ z, V ≤ z)/z²` and `R(z) = P(U ≥ z, V ≥ z)/(1-z)²` at that
same threshold, with threshold list and statistic list aligned on the same
filtered subset.  In particular the source's read of `z_right[k]` always
sees `z_right[k] = base[k]` because the upper-tail count is antitone. -/
theorem C8_empirical_profile (u v : List α) (hlen : u.length = v.length)
    (hN : u.length ≠ 0) :
    computeEmpirical u v =
      .ok (leftThresholds u v 50, leftStats u v 50, rightThresholds u v 50,
           rightStats u v 50) := by
  rw [computeEmpirical, if_neg (not_not.2 hlen), if_neg hN]
  exact empirical_fold u v hN 50

/-- Witness for C8 at the concrete input `u = v = [1/2]`. -/
theorem C8_empirical_profile_witness :
    computeEmpirical [(1 : ℚ)/2] [(1 : ℚ)/2] =
      .ok (leftThresholds [(1 : ℚ)/2] [(1 : ℚ)/2] 50, leftStats [(1 : ℚ)/2] [(1 : ℚ)/2] 50,
           rightThresholds [(1 : ℚ)/2] [(1 : ℚ)/2] 50, rightStats [(1 : ℚ)/2] [(1 : ℚ)/2] 50) :=
  C8_empirical_profile [(1 : ℚ)/2] [(1 : ℚ)/2] rfl (by decide)

/-- Witness for the amended C3 on concrete cost vectors whose maximum lies
in the upper-tail half. -/
theorem C3_amended_witness :
    ((3 : ℕ) < 3 →
      selFinish [(1 : ℚ), 2, 3] ([0, 1, 0] ++ [5, 0, 0]) =
        .ok (3, [(1 : ℚ), 2, 3].getD 3 0)) ∧
    (3 ≤ 3 →
      selFinish [(1 : ℚ), 2, 3] ([0, 1, 0] ++ [5, 0, 0]) = .error .indexError) :=
  C3_amended [1, 2, 3] [0, 1, 0] [5, 0, 0] 3 rfl (by decide)

/- Fréchet–Hoeffding bounds (claim C9), at the real instantiation of the
embedding: `rexp = Real.exp`, `rlog = Real.log`, and `rpow` the real power
`fun x y => x ^ y` (`Real.rpow`). -/

/-- The pointwise output bound asserted by the Fréchet–Hoeffding claim:
every produced value sits in `[0, min u v]` for the input pair at the same
position (`getD` defaults keep positions where a short `V` was never read
harmless). -/
def inBounds (U V W : List ℝ) : Prop :=
  ∀ i, i < W.length → W.getD i 0 ∈ Set.Icc 0 (min (U.getD i 1) (V.getD i 1))

theorem inBounds_nil (U V : List ℝ) : inBounds U V [] := by
  intro i hi
  simp at hi

theorem inBounds_cons {u v w : ℝ} {U V W : List ℝ}
    (h0 : w ∈ Set.Icc 0 (min u v)) (h : inBounds U V W) :
    inBounds (u :: U) (v :: V) (w :: W) := by
  intro i hi
  cases i with
  | zero => simpa using h0
  | succ i =>
    simp only [List.getD_cons_succ]
    exact h i (by simpa using hi)

theorem inBounds_cons_nilV {u w : ℝ} {U W : List ℝ}
    (h0 : w ∈ Set.Icc 0 (min u 1)) (h : inBounds U [] W) :
    inBounds (u :: U) [] (w :: W) := by
  intro i hi
  cases i with
  | zero => simpa using h0
  | succ i =>
    simp only [List.getD_cons_succ, List.getD_nil]
    have h2 := h i (by simpa using hi)
    simpa using h2

/-- The elementwise product lies in the Fréchet–Hoeffding band on `[0,1]²`
inputs. -/
theorem prod_mem_band {u v : ℝ} (hu : u ∈ Set.Icc (0:ℝ) 1) (hv : v ∈ Set.Icc (0:ℝ) 1) :
    u * v ∈ Set.Icc 0 (min u v) := by
  obtain ⟨hu0, hu1⟩ := hu
  obtain ⟨hv0, hv1⟩ := hv
  exact ⟨mul_nonneg hu0 hv0, le_min (mul_le_of_le_one_right hu0 hv1)
    (mul_le_of_le_one_left hv0 hu1)⟩

/-- Any elementwise combination that lands pointwise in the band lifts to
the list level. -/
theorem zipWith_inBounds {f : ℝ → ℝ → ℝ}
    (hf : ∀ u v, u ∈ Set.Icc (0:ℝ) 1 → v ∈ Set.Icc (0:ℝ) 1 → f u v ∈ Set.Icc 0 (min u v)) :
    ∀ {U V : List ℝ}, (∀ x ∈ U, x ∈ Set.Icc (0:ℝ) 1) → (∀ x ∈ V, x ∈ Set.Icc (0:ℝ) 1) →
      inBounds U V (List.zipWith f U V) := by
  intro U
  induction U with
  | nil => intro V _ _; exact inBounds_nil _ _
  | cons u us ih =>
    intro V hU hV
    cases V with
    | nil => exact inBounds_nil _ _
    | cons v vs =>
      rw [List.zipWith_cons_cons]
      exact inBounds_cons
        (hf u v (hU u (List.mem_cons_self u us)) (hV v (List.mem_cons_self v vs)))
        (ih (fun x hx => hU x (List.mem_cons_of_mem u hx))
            (fun x hx => hV x (List.mem_cons_of_mem v hx)))

/-- The Clayton kernel value, clamped at zero, lies in the
Fréchet–Hoeffding band for every positive `theta`. -/
theorem claytonPoint_mem_band {θ u v : ℝ} (hθ : 0 < θ)
    (hu : u ∈ Set.Icc (0:ℝ) 1) (hv : v ∈ Set.Icc (0:ℝ) 1) :
    max (claytonPoint (fun x y => x ^ y) θ u v) 0 ∈ Set.Icc 0 (min u v) := by
  obtain ⟨hu0, hu1⟩ := hu
  obtain ⟨hv0, hv1⟩ := hv
  have hmin0 : (0:ℝ) ≤ min u v := le_min hu0 hv0
  refine ⟨le_max_right _ 0, ?_⟩
  rw [claytonPoint]
  by_cases hu2 : 0 < u
  · rw [if_pos hu2]
    by_cases hv2 : v = 0
    · rw [if_pos hv2]
      simpa [hv2] using hmin0
    · rw [if_neg hv2]
      have hv3 : 0 < v := lt_of_le_of_ne hv0 (Ne.symm hv2)
      have hexp : -θ ≤ 0 := by linarith
      have ha1 : 1 ≤ u ^ (-θ) :=
        Real.one_le_rpow_of_pos_of_le_one_of_nonpos hu2 hu1 hexp
      have hb1 : 1 ≤ v ^ (-θ) :=
        Real.one_le_rpow_of_pos_of_le_one_of_nonpos hv3 hv1 hexp
      have hapos : (0:ℝ) < u ^ (-θ) := lt_of_lt_of_le one_pos ha1
      have hbpos : (0:ℝ) < v ^ (-θ) := lt_of_lt_of_le one_pos hb1
      have hsa : u ^ (-θ) ≤ u ^ (-θ) + v ^ (-θ) - 1 := by linarith
      have hsb : v ^ (-θ) ≤ u ^ (-θ) + v ^ (-θ) - 1 := by linarith
      have hzn : -1 / θ ≤ 0 := le_of_lt (div_neg_of_neg_of_pos (by norm_num) hθ)
      have hone : -θ * (-1 / θ) = 1 := by field_simp
      have hle_u : (u ^ (-θ) + v ^ (-θ) - 1) ^ (-1/θ) ≤ u := by
        have h1 : (u ^ (-θ) + v ^ (-θ) - 1) ^ (-1/θ) ≤ (u ^ (-θ)) ^ (-1/θ) :=
          Real.rpow_le_rpow_of_nonpos hapos hsa hzn
        have h2 : (u ^ (-θ)) ^ (-1/θ) = u := by
          rw [← Real.rpow_mul hu0, hone, Real.rpow_one]
        linarith
      have hle_v : (u ^ (-θ) + v ^ (-θ) - 1) ^ (-1/θ) ≤ v := by
        have h1 : (u ^ (-θ) + v ^ (-θ) - 1) ^ (-1/θ) ≤ (v ^ (-θ)) ^ (-1/θ) :=
          Real.rpow_le_rpow_of_nonpos hbpos hsb hzn
        have h2 : (v ^ (-θ)) ^ (-1/θ) = v := by
          rw [← Real.rpow_mul hv0, hone, Real.rpow_one]
        linarith
      exact max_le (le_min hle_u hle_v) hmin0
  · rw [if_neg hu2]
    simpa using hmin0

/-- The Frank formula lies in the Fréchet–Hoeffding band for every
positive `theta`. -/
theorem frankPoint_mem_band {θ u v : ℝ} (hθ : 0 < θ)
    (hu : u ∈ Set.Icc (0:ℝ) 1) (hv : v ∈ Set.Icc (0:ℝ) 1) :
    -1 / θ * Real.log (1 +
        (Real.exp (-θ * u) - 1) * (Real.exp (-θ * v) - 1) / (Real.exp (-θ) - 1))
      ∈ Set.Icc 0 (min u v) := by
  obtain ⟨hu0, hu1⟩ := hu
  obtain ⟨hv0, hv1⟩ := hv
  have ha0 : Real.exp (-θ * u) - 1 ≤ 0 := by
    have : Real.exp (-θ * u) ≤ 1 := Real.exp_le_one_iff.2 (by nlinarith)
    linarith
  have hb0 : Real.exp (-θ * v) - 1 ≤ 0 := by
    have : Real.exp (-θ * v) ≤ 1 := Real.exp_le_one_iff.2 (by nlinarith)
    linarith
  have hd0 : Real.exp (-θ) - 1 < 0 := by
    have : Real.exp (-θ) < 1 := Real.exp_lt_one_iff.2 (by linarith)
    linarith
  have had : Real.exp (-θ) - 1 ≤ Real.exp (-θ * u) - 1 := by
    have : Real.exp (-θ) ≤ Real.exp (-θ * u) := Real.exp_le_exp.2 (by nlinarith)
    linarith
  have hbd : Real.exp (-θ) - 1 ≤ Real.exp (-θ * v) - 1 := by
    have : Real.exp (-θ) ≤ Real.exp (-θ * v) := Real.exp_le_exp.2 (by nlinarith)
    linarith
  have hn0 : 0 ≤ (Real.exp (-θ * u) - 1) * (Real.exp (-θ * v) - 1) := by nlinarith
  have hq0 : (Real.exp (-θ * u) - 1) * (Real.exp (-θ * v) - 1) / (Real.exp (-θ) - 1) ≤ 0 :=
    div_nonpos_iff.2 (Or.inl ⟨hn0, hd0.le⟩)
  have hq1 : -1 < (Real.exp (-θ * u) - 1) * (Real.exp (-θ * v) - 1) / (Real.exp (-θ) - 1) := by
    rw [lt_div_iff_of_neg hd0]
    have hbpos : 0 < Real.exp (-θ * v) := Real.exp_pos _
    nlinarith
  have h1q : 0 < 1 +
      (Real.exp (-θ * u) - 1) * (Real.exp (-θ * v) - 1) / (Real.exp (-θ) - 1) := by
    linarith
  have hzn : -1 / θ ≤ 0 := le_of_lt (div_neg_of_neg_of_pos (by norm_num) hθ)
  constructor
  · have hlog : Real.log (1 +
        (Real.exp (-θ * u) - 1) * (Real.exp (-θ * v) - 1) / (Real.exp (-θ) - 1)) ≤ 0 :=
      Real.log_nonpos (by linarith) (by linarith)
    nlinarith
  · have key : ∀ w : ℝ, 0 ≤ w → w ≤ 1 →
        Real.exp (-θ) - 1 ≤ Real.exp (-θ * w) - 1 →
        (Real.exp (-θ * u) - 1) * (Real.exp (-θ * v) - 1) / (Real.exp (-θ) - 1) ≥
          Real.exp (-θ * w) - 1 →
        -1 / θ * Real.log (1 +
          (Real.exp (-θ * u) - 1) * (Real.exp (-θ * v) - 1) / (Real.exp (-θ) - 1)) ≤ w := by
      intro w hw0 hw1 hwd hwq
      have hwexp : Real.exp (-θ * w) ≤ 1 +
          (Real.exp (-θ * u) - 1) * (Real.exp (-θ * v) - 1) / (Real.exp (-θ) - 1) := by
        linarith
      have hlog2 : -θ * w ≤ Real.log (1 +
          (Real.exp (-θ * u) - 1) * (Real.exp (-θ * v) - 1) / (Real.exp (-θ) - 1)) :=
        (Real.le_log_iff_exp_le h1q).2 hwexp
      have hmul := mul_le_mul_of_nonpos_left hlog2 hzn
      have heq : -1 / θ * (-θ * w) = w := by field_simp
      linarith [hmul, heq.symm.le]
    apply le_min
    · apply key u hu0 hu1 had
      rw [ge_iff_le, le_div_iff_of_neg hd0]
      nlinarith
    · apply key v hv0 hv1 hbd
      rw [ge_iff_le, le_div_iff_of_neg hd0]
      nlinarith

/-- The Gumbel kernel value lies in the Fréchet–Hoeffding band for every
`theta > 1`. -/
theorem gumbelPoint_mem_band {θ u v : ℝ} (hθ : 1 < θ)
    (hu : u ∈ Set.Icc (0:ℝ) 1) (hv : v ∈ Set.Icc (0:ℝ) 1) :
    gumbelPoint Real.exp Real.log (fun x y => x ^ y) θ u v ∈ Set.Icc 0 (min u v) := by
  obtain ⟨hu0, hu1⟩ := hu
  obtain ⟨hv0, hv1⟩ := hv
  have hmin0 : (0:ℝ) ≤ min u v := le_min hu0 hv0
  rw [gumbelPoint]
  by_cases hu2 : u = 0
  · rw [if_pos hu2]
    exact ⟨le_refl 0, by simp [hu2, hmin0]; positivity⟩
  · rw [if_neg hu2]
    by_cases hv2 : v = 0
    · rw [if_pos hv2]
      exact ⟨le_refl 0, by simp [hv2]; positivity⟩
    · rw [if_neg hv2]
      have hu3 : 0 < u := lt_of_le_of_ne hu0 (Ne.symm hu2)
      have hv3 : 0 < v := lt_of_le_of_ne hv0 (Ne.symm hv2)
      have hθ0 : (0:ℝ) < θ := lt_trans one_pos hθ
      have hx0 : 0 ≤ -Real.log u := neg_nonneg.2 (Real.log_nonpos hu0 hu1)
      have hy0 : 0 ≤ -Real.log v := neg_nonneg.2 (Real.log_nonpos hv0 hv1)
      have hxθ : (0:ℝ) ≤ (-Real.log u) ^ θ := Real.rpow_nonneg hx0 θ
      have hyθ : (0:ℝ) ≤ (-Real.log v) ^ θ := Real.rpow_nonneg hy0 θ
      have hone : θ * (1 / θ) = 1 := by field_simp
      have hs_x : -Real.log u ≤ ((-Real.log u) ^ θ + (-Real.log v) ^ θ) ^ (1/θ) := by
        have h1 : ((-Real.log u) ^ θ) ^ (1/θ) ≤
            ((-Real.log u) ^ θ + (-Real.log v) ^ θ) ^ (1/θ) :=
          Real.rpow_le_rpow hxθ (by linarith) (by positivity)
        have h2 : ((-Real.log u) ^ θ) ^ (1/θ) = -Real.log u := by
          rw [← Real.rpow_mul hx0, hone, Real.rpow_one]
        linarith
      have hs_y : -Real.log v ≤ ((-Real.log u) ^ θ + (-Real.log v) ^ θ) ^ (1/θ) := by
        have h1 : ((-Real.log v) ^ θ) ^ (1/θ) ≤
            ((-Real.log u) ^ θ + (-Real.log v) ^ θ) ^ (1/θ) :=
          Real.rpow_le_rpow hyθ (by linarith) (by positivity)
        have h2 : ((-Real.log v) ^ θ) ^ (1/θ) = -Real.log v := by
          rw [← Real.rpow_mul hy0, hone, Real.rpow_one]
        linarith
      refine ⟨(Real.exp_pos _).le, le_min ?_ ?_⟩
      · have h3 : Real.exp (-(((-Real.log u) ^ θ + (-Real.log v) ^ θ) ^ (1/θ))) ≤
            Real.exp (Real.log u) := Real.exp_le_exp.2 (by linarith)
        rwa [Real.exp_log hu3] at h3
      · have h3 : Real.exp (-(((-Real.log u) ^ θ + (-Real.log v) ^ θ) ^ (1/θ))) ≤
            Real.exp (Real.log v) := Real.exp_le_exp.2 (by linarith)
        rwa [Real.exp_log hv3] at h3

/-- The Clayton comprehension's output, after the clamp, lies in the band
entrywise. -/
theorem claytonRow_inBounds {θ : ℝ} (hθ : 0 < θ) :
    ∀ {U V W : List ℝ}, (∀ x ∈ U, x ∈ Set.Icc (0:ℝ) 1) →
      (∀ x ∈ V, x ∈ Set.Icc (0:ℝ) 1) →
      claytonRow (fun x y => x ^ y) θ U V = .ok W →
      inBounds U V (W.map fun w => max w 0) := by
  intro U
  induction U with
  | nil =>
    intro V W _ _ h
    cases h
    exact inBounds_nil _ _
  | cons u us ih =>
    intro V W hU hV h
    cases V with
    | nil =>
      rw [claytonRow] at h
      by_cases h0 : 0 < u
      · rw [if_pos h0] at h
        cases h
      · rw [if_neg h0] at h
        obtain ⟨W2, hrec, h2⟩ := PyRes.bind_eq_ok.1 h
        rw [PyRes.pure_eq_ok] at h2
        cases h2
        rw [List.map_cons]
        refine inBounds_cons_nilV ?_
          (ih (fun x hx => hU x (List.mem_cons_of_mem u hx)) (fun x hx => by simp at hx) hrec)
        have hu2 := hU u (List.mem_cons_self u us)
        exact ⟨le_max_right _ _, by
          rw [max_self]
          exact le_min hu2.1 zero_le_one⟩
    | cons v vs =>
      rw [claytonRow] at h
      obtain ⟨W2, hrec, h2⟩ := PyRes.bind_eq_ok.1 h
      rw [PyRes.pure_eq_ok] at h2
      cases h2
      rw [List.map_cons]
      exact inBounds_cons
        (claytonPoint_mem_band hθ (hU u (List.mem_cons_self u us))
          (hV v (List.mem_cons_self v vs)))
        (ih (fun x hx => hU x (List.mem_cons_of_mem u hx))
          (fun x hx => hV x (List.mem_cons_of_mem v hx)) hrec)

/-- The Gumbel loop's output lies in the band entrywise. -/
theorem gumbelRow_inBounds {θ : ℝ} (hθ : 1 < θ) :
    ∀ {U V W : List ℝ}, (∀ x ∈ U, x ∈ Set.Icc (0:ℝ) 1) →
      (∀ x ∈ V, x ∈ Set.Icc (0:ℝ) 1) →
      gumbelRow Real.exp Real.log (fun x y => x ^ y) θ U V = .ok W →
      inBounds U V W := by
  intro U
  induction U with
  | nil =>
    intro V W _ _ h
    cases h
    exact inBounds_nil _ _
  | cons u us ih =>
    intro V W hU hV h
    cases V with
    | nil =>
      rw [gumbelRow] at h
      by_cases h0 : u = 0
      · rw [if_pos h0] at h
        obtain ⟨W2, hrec, h2⟩ := PyRes.bind_eq_ok.1 h
        rw [PyRes.pure_eq_ok] at h2
        cases h2
        refine inBounds_cons_nilV ?_
          (ih (fun x hx => hU x (List.mem_cons_of_mem u hx)) (fun x hx => by simp at hx) hrec)
        exact ⟨le_refl 0, by simp [h0]⟩
      · rw [if_neg h0] at h
        cases h
    | cons v vs =>
      rw [gumbelRow] at h
      obtain ⟨W2, hrec, h2⟩ := PyRes.bind_eq_ok.1 h
      rw [PyRes.pure_eq_ok] at h2
      cases h2
      exact inBounds_cons
        (gumbelPoint_mem_band hθ (hU u (List.mem_cons_self u us))
          (hV v (List.mem_cons_self v vs)))
        (ih (fun x hx => hU x (List.mem_cons_of_mem u hx))
          (fun x hx => hV x (List.mem_cons_of_mem v hx)) hrec)

/-- The vectorised Frank formula lies in the band entrywise. -/
theorem frankLists_inBounds {θ : ℝ} (hθ : 0 < θ) :
    ∀ {U V : List ℝ}, (∀ x ∈ U, x ∈ Set.Icc (0:ℝ) 1) →
      (∀ x ∈ V, x ∈ Set.Icc (0:ℝ) 1) →
      inBounds U V ((List.zipWith (fun a b => a * b)
          (U.map fun u => Real.exp (-θ * u) - 1)
          (V.map fun v => Real.exp (-θ * v) - 1)).map
        (fun n => -1 / θ * Real.log (1 + n / (Real.exp (-θ) - 1)))) := by
  intro U
  induction U with
  | nil =>
    intro V _ _
    simpa using inBounds_nil ([] : List ℝ) V
  | cons u us ih =>
    intro V hU hV
    cases V with
    | nil => simpa using inBounds_nil (u :: us) ([] : List ℝ)
    | cons v vs =>
      simp only [List.map_cons, List.zipWith_cons_cons]
      exact inBounds_cons
        (frankPoint_mem_band hθ (hU u (List.mem_cons_self u us))
          (hV v (List.mem_cons_self v vs)))
        (ih (fun x hx => hU x (List.mem_cons_of_mem u hx))
          (fun x hx => hV x (List.mem_cons_of_mem v hx)))

/-- C9: for all inputs in `[0,1]` and every parameter in the family's
valid domain (Clayton `theta ≥ 0`, Frank `theta ≥ 0`, Gumbel `theta ≥ 1`),
every value returned by the cdf evaluators — instantiated with the real
exponential, logarithm and power — lies in the Fréchet–Hoeffding band
`[0, min u v]` of its input pair. -/
theorem C9_frechet_bounds (θc θf θg : ℝ) (U V Wc Wf Wg : List ℝ)
    (hU : ∀ x ∈ U, x ∈ Set.Icc (0:ℝ) 1) (hV : ∀ x ∈ V, x ∈ Set.Icc (0:ℝ) 1)
    (hθc : 0 ≤ θc) (hθf : 0 ≤ θf) (hθg : 1 ≤ θg)
    (hc : claytonCdf (fun x y => x ^ y) U V θc = .ok Wc)
    (hf : frankCdf Real.exp Real.log U V θf = .ok Wf)
    (hg : gumbelCdf Real.exp Real.log (fun x y => x ^ y) U V θg = .ok Wg) :
    inBounds U V Wc ∧ inBounds U V Wf ∧ inBounds U V Wg := by
  refine ⟨?_, ?_, ?_⟩
  · rw [claytonCdf, if_neg (not_lt.2 hθc)] at hc
    by_cases h0 : θc = 0
    · rw [if_pos h0, npMultiply, npZip] at hc
      split at hc
      · cases hc
        exact zipWith_inBounds (fun u v hu hv => prod_mem_band hu hv) hU hV
      · cases hc
    · rw [if_neg h0] at hc
      obtain ⟨W0, hrow, h2⟩ := PyRes.bind_eq_ok.1 hc
      rw [PyRes.pure_eq_ok] at h2
      cases h2
      exact claytonRow_inBounds (lt_of_le_of_ne hθc (Ne.symm h0)) hU hV hrow
  · rw [frankCdf, if_neg (not_lt.2 hθf)] at hf
    by_cases h0 : θf = 0
    · rw [if_pos h0, npMultiply, npZip] at hf
      split at hf
      · cases hf
        exact zipWith_inBounds (fun u v hu hv => prod_mem_band hu hv) hU hV
      · cases hf
    · rw [if_neg h0] at hf
      obtain ⟨num, hnum, h2⟩ := PyRes.bind_eq_ok.1 hf
      simp only [PyRes.pure_eq_ok] at h2
      cases h2
      rw [npMultiply, npZip] at hnum
      split at hnum
      · cases hnum
        exact frankLists_inBounds (lt_of_le_of_ne hθf (Ne.symm h0)) hU hV
      · cases hnum
  · rw [gumbelCdf, if_neg (not_lt.2 hθg)] at hg
    by_cases h0 : θg = 1
    · rw [if_pos h0, npMultiply, npZip] at hg
      split at hg
      · cases hg
        exact zipWith_inBounds (fun u v hu hv => prod_mem_band hu hv) hU hV
      · cases hg
    · rw [if_neg h0] at hg
      exact gumbelRow_inBounds (lt_of_le_of_ne hθg (Ne.symm h0)) hU hV hg

/-- Witness for C9 at the concrete input `U = [1/2]`, `V = [1/3]` with the
independence parameters, where all three evaluators return `[1/6]`. -/
theorem C9_frechet_bounds_witness :
    inBounds [(1:ℝ)/2] [(1:ℝ)/3] [(1:ℝ)/6] ∧ inBounds [(1:ℝ)/2] [(1:ℝ)/3] [(1:ℝ)/6] ∧
      inBounds [(1:ℝ)/2] [(1:ℝ)/3] [(1:ℝ)/6] := by
  have hU : ∀ x ∈ [(1:ℝ)/2], x ∈ Set.Icc (0:ℝ) 1 := by
    intro x hx
    rw [List.mem_singleton] at hx
    subst hx
    constructor <;> norm_num
  have hV : ∀ x ∈ [(1:ℝ)/3], x ∈ Set.Icc (0:ℝ) 1 := by
    intro x hx
    rw [List.mem_singleton] at hx
    subst hx
    constructor <;> norm_num
  have hc : claytonCdf (fun x y => x ^ y) [(1:ℝ)/2] [(1:ℝ)/3] 0 = .ok [(1:ℝ)/6] := by
    rw [claytonCdf, if_neg (lt_irrefl 0), if_pos rfl, npMultiply, npZip]
    norm_num
  have hf : frankCdf Real.exp Real.log [(1:ℝ)/2] [(1:ℝ)/3] 0 = .ok [(1:ℝ)/6] := by
    rw [frankCdf, if_neg (lt_irrefl 0), if_pos rfl, npMultiply, npZip]
    norm_num
  have hg : gumbelCdf Real.exp Real.log (fun x y => x ^ y) [(1:ℝ)/2] [(1:ℝ)/3] 1 = .ok [(1:ℝ)/6] := by
    rw [gumbelCdf, if_neg (lt_irrefl 1), if_pos rfl, npMultiply, npZip]
    norm_num
  exact C9_frechet_bounds 0 0 1 [(1:ℝ)/2] [(1:ℝ)/3] [(1:ℝ)/6] [(1:ℝ)/6] [(1:ℝ)/6]
    hU hV le_rfl le_rfl le_rfl hc hf hg

end CopulaModel
